import Mathlib

/-!
Verification of the image-annotation tool (`src/image_annotator.py`).

The meaningful logic of the program is a coordinate mapper (display
coordinates of a resized image versus original-image pixel coordinates)
and an annotation store (an ordered list of labeled points mutated by
the interaction handlers: click, manual point entry, submit, cancel,
undo, clear), plus a CSV export.

Numeric values that the program keeps as Python floats are embedded as
rationals (`ℚ`), so the algebraic identities hold exactly; image sizes
and slider values are natural numbers, as in the program.
-/

namespace ImageAnnotator

/-- One stored annotation row of the dataframe
`pd.DataFrame(columns=['x', 'y', 'label', 'timestamp'])`:
`x`, `y` are original-image pixel coordinates, `label` and `timestamp`
are strings. -/
structure Ann where
  x : ℚ
  y : ℚ
  label : String
  timestamp : String
deriving DecidableEq, Repr

/-- The displayed height computed by the program:
`aspect = height / width; display_height = int(display_width * aspect)`.
All quantities are nonnegative, so Python `int()` truncation is the floor. -/
def display_height (w h dw : ℕ) : ℤ :=
  Int.floor ((dw : ℚ) * ((h : ℚ) / (w : ℚ)))

/-- Horizontal scale factor `scale_x = width / display_width` (line 87). -/
def scale_x (w dw : ℕ) : ℚ := (w : ℚ) / (dw : ℚ)

/-- Vertical scale factor `scale_y = height / display_height` (line 88). -/
def scale_y (w h dw : ℕ) : ℚ := (h : ℚ) / ((display_height w h dw : ℤ) : ℚ)

/-- Click mapping (lines 139-140):
`original_x = clicked_x * scale_x`, `original_y = clicked_y * scale_y`. -/
def clickToOriginal (sx sy : ℚ) (p : ℚ × ℚ) : ℚ × ℚ := (p.1 * sx, p.2 * sy)

/-- Rendering mapping (lines 101-102):
`display_x = x / scale_x`, `display_y = y / scale_y`. -/
def annToDisplay (sx sy : ℚ) (p : ℚ × ℚ) : ℚ × ℚ := (p.1 / sx, p.2 / sy)

/-- The mutable session state of one browser session:
`st.session_state.annotations` (the dataframe, embedded as the ordered
list of its rows), `st.session_state.current_point` and
`st.session_state.awaiting_label`.  The image size is a parameter of the
step function since it is set once per uploaded image. -/
structure AppState where
  anns : List Ann
  current_point : Option (ℚ × ℚ)
  awaiting_label : Bool
deriving DecidableEq, Repr

/-- The user interactions the rerun loop reacts to.  A click carries the
slider value `display_width` current at that rerun and the display-space
click position; a manual point entry carries the two `st.number_input`
values; a submit carries the text-input label and the generated
timestamp. -/
inductive Event where
  | click (dw : ℕ) (cx cy : ℚ)
  | setPoint (x y : ℕ)
  | submit (label ts : String)
  | cancel
  | undo
  | clear
deriving DecidableEq, Repr

/-- Appending a row to the annotation dataframe (lines 192-198):
`new_row` if the frame is empty, `pd.concat([annotations, new_row])`
otherwise. -/
def addAnn (anns : List Ann) (a : Ann) : List Ann :=
  if anns.length = 0 then [a] else anns ++ [a]

/-- One rerun of the interaction loop on one user action, for an uploaded
image of size `w` x `h`:

* a click (line 137) is handled only when `awaiting_label` is false; it
  stores the mapped original coordinates as `current_point` and sets
  `awaiting_label` (lines 139-142);
* the fallback Set Point button (lines 162-164) stores the manually
  entered coordinates (already in original coordinates, clamped by the
  widget to `[0, w]` x `[0, h]`);
* the annotation form exists only while `awaiting_label` and
  `current_point` are set (line 171); Add Annotation with a non-empty
  label appends a row and resets the pending point (lines 181-202), an
  empty label leaves everything unchanged; Cancel resets the pending
  point (lines 205-207);
* Undo (lines 221-223) exists only when the frame is non-empty and drops
  the last row (`iloc[:-1]`);
* Clear All (lines 57-60) exists only when the frame is non-empty and
  resets the frame, `awaiting_label` and `current_point`. -/
def step (w h : ℕ) (s : AppState) : Event → AppState
  | .click dw cx cy =>
      if s.awaiting_label then s
      else { s with
        current_point :=
          some (clickToOriginal (scale_x w dw) (scale_y w h dw) (cx, cy)),
        awaiting_label := true }
  | .setPoint x y =>
      { s with current_point := some ((x : ℚ), (y : ℚ)),
               awaiting_label := true }
  | .submit label ts =>
      match s.current_point, s.awaiting_label with
      | some p, true =>
          if label = "" then s
          else
            { s with anns := addAnn s.anns ⟨p.1, p.2, label, ts⟩,
                     current_point := none,
                     awaiting_label := false }
      | _, _ => s
  | .cancel =>
      match s.current_point, s.awaiting_label with
      | some _, true =>
          { s with current_point := none, awaiting_label := false }
      | _, _ => s
  | .undo =>
      if s.anns.length > 0 then { s with anns := s.anns.dropLast } else s
  | .clear =>
      if s.anns.length > 0 then
        { s with anns := [], current_point := none, awaiting_label := false }
      else s

/-- The empty session state created on session start (lines 16-32). -/
def initState : AppState := ⟨[], none, false⟩

/-- Running the rerun loop over a sequence of user actions. -/
def run (w h : ℕ) (s : AppState) (es : List Event) : AppState :=
  es.foldl (step w h) s

/-- The environment assumptions on events: the click-event source yields
positions inside the displayed image (of size `display_width` x
`display_height`), and the manual number inputs are clamped by the widget
to `min_value=0, max_value=width` resp. `height` (lines 158-160). -/
def validEvent (w h : ℕ) : Event → Prop
  | .click dw cx cy =>
      0 ≤ cx ∧ cx ≤ (dw : ℚ) ∧
      0 ≤ cy ∧ cy ≤ ((display_height w h dw : ℤ) : ℚ)
  | .setPoint x y => x ≤ w ∧ y ≤ h
  | _ => True

instance (w h : ℕ) (e : Event) : Decidable (validEvent w h e) := by
  cases e <;> unfold validEvent <;> infer_instance

/-! CSV export (`convert_df_to_csv`, lines 228-230).

The call `df.to_csv(index=False)` writes the header line `x,y,label,timestamp`
followed by one line per row in order, fields joined by commas and lines
terminated by a newline; with the default QUOTE_MINIMAL a field is
wrapped in double quotes, inner quotes doubled, exactly when it contains
a comma, a double quote or a line break.  The model works on character
lists; the final `.encode('utf-8')` step is the injective byte encoding
of exactly this character content. -/

/-- A character that forces quoting under QUOTE_MINIMAL. -/
def isSpecial (c : Char) : Bool := c = ',' || c = '"' || c = '\n' || c = '\r'

/-- Double every inner double quote of a quoted field body. -/
def escapeQuotes : List Char → List Char
  | [] => []
  | c :: cs =>
    if c = '"' then '"' :: '"' :: escapeQuotes cs else c :: escapeQuotes cs

/-- Serialize one field under QUOTE_MINIMAL. -/
def encodeField (cs : List Char) : List Char :=
  if cs.any isSpecial then '"' :: (escapeQuotes cs ++ [ '"' ]) else cs

/-- Serialize one record: fields joined by commas, newline-terminated. -/
def encodeRecord : List (List Char) → List Char
  | [] => [ '\n' ]
  | [f] => encodeField f ++ [ '\n' ]
  | f :: fs => encodeField f ++ ',' :: encodeRecord fs

/-- Serialize a full CSV file: the concatenation of its records. -/
def encodeCsv (rows : List (List (List Char))) : List Char :=
  (rows.map encodeRecord).flatten

/-- Parse the body of a quoted field (after its opening quote): a doubled
quote stands for one quote, a lone quote closes the field. -/
def parseQuoted : List Char → List Char × List Char
  | [] => ([], [])
  | c :: cs =>
    if c = '"' then
      match cs with
      | [] => ([], [])
      | c2 :: cs2 =>
        if c2 = '"' then
          let p := parseQuoted cs2
          ('"' :: p.1, p.2)
        else ([], cs)
    else
      let p := parseQuoted cs
      (c :: p.1, p.2)

/-- Parse an unquoted field: everything up to a comma or newline. -/
def parseRaw : List Char → List Char × List Char
  | [] => ([], [])
  | c :: cs =>
    if c = ',' ∨ c = '\n' then ([], c :: cs)
    else
      let p := parseRaw cs
      (c :: p.1, p.2)

/-- Parse one field, quoted or not. -/
def parseField : List Char → List Char × List Char
  | [] => ([], [])
  | c :: cs => if c = '"' then parseQuoted cs else parseRaw (c :: cs)

/-- Parse the comma-separated fields of one record (fuelled). -/
def parseRecAux : ℕ → List Char → List (List Char) × List Char
  | 0, cs => ([], cs)
  | fuel + 1, cs =>
    let p := parseField cs
    match p.2 with
    | c :: rest =>
      if c = ',' then
        let q := parseRecAux fuel rest
        (p.1 :: q.1, q.2)
      else if c = '\n' then ([p.1], rest)
      else ([p.1], c :: rest)
    | [] => ([p.1], [])

/-- Parse one newline-terminated record. -/
def parseRecord (cs : List Char) : List (List Char) × List Char :=
  parseRecAux (cs.length + 1) cs

/-- Parse a sequence of records (fuelled). -/
def parseRowsAux : ℕ → List Char → List (List (List Char))
  | 0, _ => []
  | _ + 1, [] => []
  | fuel + 1, cs =>
    let p := parseRecord cs
    p.1 :: parseRowsAux fuel p.2

/-- Parse a full CSV file into its records of fields. -/
def parseCsv (cs : List Char) : List (List (List Char)) :=
  parseRowsAux cs.length cs

/-- The numeric value of a decimal digit character. -/
def charDigit (c : Char) : ℕ := c.toNat - 48

/-- Decimal rendering of a natural number. -/
def renderNat (n : ℕ) : List Char :=
  if n = 0 then [ '0' ] else ((Nat.digits 10 n).map Nat.digitChar).reverse

/-- Read a decimal digit string back as a natural number. -/
def parseNatChars (cs : List Char) : ℕ :=
  cs.foldl (fun a c => 10 * a + charDigit c) 0

/-- Injective textual rendering of a rational field value (sign, then
numerator, then denominator when it is not 1). -/
def renderRat (q : ℚ) : List Char :=
  (if q < 0 then [ '-' ] else []) ++ renderNat q.num.natAbs ++
    (if q.den = 1 then [] else '/' :: renderNat q.den)

/-- Is a character distinct from the numerator/denominator separator? -/
def notSlash (c : Char) : Bool := decide (c ≠ '/')

/-- Read an unsigned rendered rational back. -/
def parsePosRat (cs : List Char) : ℚ :=
  let numPart := cs.takeWhile notSlash
  let denPart := cs.dropWhile notSlash
  match denPart with
  | [] => (parseNatChars numPart : ℚ)
  | _ :: d => (parseNatChars numPart : ℚ) / (parseNatChars d : ℚ)

/-- Read a rendered rational back, sign included. -/
def parseRatChars : List Char → ℚ
  | [] => 0
  | c :: cs => if c = '-' then - parsePosRat cs else parsePosRat (c :: cs)

/-- The CSV record of one annotation, in the dataframe's column order
`[x, y, label, timestamp]`. -/
def annRow (a : Ann) : List (List Char) :=
  [renderRat a.x, renderRat a.y, a.label.data, a.timestamp.data]

/-- The header record written by `to_csv`. -/
def headerRow : List (List Char) :=
  [[ 'x' ], [ 'y' ], "label".data, "timestamp".data]

/-- Serialization of the annotation frame (lines 228-230): header first,
one record per row in insertion order. -/
def convert_df_to_csv (anns : List Ann) : List Char :=
  encodeCsv (headerRow :: anns.map annRow)

/-- Recover the `(x, y, label)` triple from one parsed CSV record. -/
def rowTriple : List (List Char) → Option (ℚ × ℚ × String)
  | [xs, ys, ls, _] => some (parseRatChars xs, parseRatChars ys, String.mk ls)
  | _ => none

/-- A point lies inside the original image. -/
def inBounds (w h : ℕ) (x y : ℚ) : Prop :=
  0 ≤ x ∧ x ≤ (w : ℚ) ∧ 0 ≤ y ∧ y ≤ (h : ℚ)

/-- The session-state invariant: every stored annotation and any pending
point lies inside the original image. -/
def stateInv (w h : ℕ) (s : AppState) : Prop :=
  (∀ a ∈ s.anns, inBounds w h a.x a.y) ∧
  (∀ p : ℚ × ℚ, s.current_point = some p → inBounds w h p.1 p.2)

/-- Sample stored annotations used by concrete witnesses. -/
def a1 : Ann := ⟨1, 2, "p1", "t1"⟩

/-- A second sample annotation. -/
def a2 : Ann := ⟨3, 4, "p2", "t2"⟩

/-- Claim C1: for every uploaded image and display width, the mapper uses
`scale_x = width / display_width` and `scale_y = height / display_height`,
maps a display click `(cx, cy)` to `(cx * scale_x, cy * scale_y)`, renders a
stored annotation back at `(x / scale_x, y / scale_y)`, and the click
mapping is linear and invertible: mapping a click to original coordinates
and back to display coordinates returns the original click (exactly, over
`ℚ`; the program differs only by floating rounding). -/
theorem coordinate_mapper_linear_invertible (w h dw : ℕ)
    (hw : 0 < w) (hh : 0 < h) (hdw : 0 < dw)
    (hdh : 0 < display_height w h dw) :
    scale_x w dw = (w : ℚ) / (dw : ℚ) ∧
    scale_y w h dw = (h : ℚ) / ((display_height w h dw : ℤ) : ℚ) ∧
    (∀ p : ℚ × ℚ,
      annToDisplay (scale_x w dw) (scale_y w h dw)
        (clickToOriginal (scale_x w dw) (scale_y w h dw) p) = p) ∧
    (∀ p q : ℚ × ℚ,
      clickToOriginal (scale_x w dw) (scale_y w h dw) (p + q) =
        clickToOriginal (scale_x w dw) (scale_y w h dw) p +
          clickToOriginal (scale_x w dw) (scale_y w h dw) q) ∧
    (∀ (c : ℚ) (p : ℚ × ℚ),
      clickToOriginal (scale_x w dw) (scale_y w h dw) (c • p) =
        c • clickToOriginal (scale_x w dw) (scale_y w h dw) p) := by
  have hsx : scale_x w dw ≠ 0 := by
    have h1 : (0 : ℚ) < (w : ℚ) := by exact_mod_cast hw
    have h2 : (0 : ℚ) < (dw : ℚ) := by exact_mod_cast hdw
    have : 0 < scale_x w dw := by
      unfold scale_x; positivity
    exact ne_of_gt this
  have hsy : scale_y w h dw ≠ 0 := by
    have h1 : (0 : ℚ) < (h : ℚ) := by exact_mod_cast hh
    have h2 : (0 : ℚ) < ((display_height w h dw : ℤ) : ℚ) := by exact_mod_cast hdh
    have : 0 < scale_y w h dw := by
      unfold scale_y; positivity
    exact ne_of_gt this
  refine ⟨rfl, rfl, ?_, ?_, ?_⟩
  · intro p
    simp only [clickToOriginal, annToDisplay]
    exact Prod.ext (mul_div_cancel_right₀ p.1 hsx) (mul_div_cancel_right₀ p.2 hsy)
  · intro p q
    simp only [clickToOriginal, Prod.fst_add, Prod.snd_add, Prod.mk_add_mk]
    ring_nf
  · intro c p
    simp only [clickToOriginal, Prod.smul_fst, Prod.smul_snd, Prod.smul_mk, smul_eq_mul]
    ring_nf

/-- Witness for C1 at the concrete image 800 x 600 with display width 400
and the click (100, 100). -/
theorem coordinate_mapper_linear_invertible_witness :
    (0 < 800 ∧ 0 < 600 ∧ 0 < 400 ∧ 0 < display_height 800 600 400) ∧
    annToDisplay (scale_x 800 400) (scale_y 800 600 400)
      (clickToOriginal (scale_x 800 400) (scale_y 800 600 400) (100, 100)) =
      (100, 100) := by
  have hd : 0 < display_height 800 600 400 := by
    unfold display_height; norm_num
  exact ⟨⟨by decide, by decide, by decide, hd⟩,
    (coordinate_mapper_linear_invertible 800 600 400 (by decide) (by decide)
      (by decide) hd).2.2.1 (100, 100)⟩

/-- Claim C2 counterexample: the spec example asserts that for an 800 x 600
image at display width 400 the program computes `scale_y = 1.5` and maps the
display click (100, 100) to original (200, 150).  The program computes
`display_height = int(400 * (600 / 800)) = 300`, so `scale_y = 600 / 300 = 2`
and the click maps to (200, 200). -/
theorem example_scale_y_counterexample :
    ¬ (scale_y 800 600 400 = 3 / 2 ∧
       clickToOriginal (scale_x 800 400) (scale_y 800 600 400) (100, 100) =
         (200, 150)) := by
  have hd : display_height 800 600 400 = 300 := by
    unfold display_height; norm_num
  rintro ⟨hs, -⟩
  rw [scale_y, hd] at hs
  norm_num at hs

/-- Claim C2 as amended: for an 800 x 600 image with display width 400 the
program computes `scale_x = 2` and `scale_y = 2` (since the displayed image
is 400 x 300), and a click at display (100, 100) maps to original
(200, 200). -/
theorem example_scale_amended :
    scale_x 800 400 = 2 ∧ scale_y 800 600 400 = 2 ∧
    clickToOriginal (scale_x 800 400) (scale_y 800 600 400) (100, 100) =
      (200, 200) := by
  have hd : display_height 800 600 400 = 300 := by
    unfold display_height; norm_num
  refine ⟨by norm_num [scale_x], ?_, ?_⟩
  · rw [scale_y, hd]; norm_num
  · rw [clickToOriginal, scale_x, scale_y, hd]
    norm_num

lemma parseQuoted_escape (cs : List Char) (d : Char) (hd : d ≠ '"')
    (rest : List Char) :
    parseQuoted (escapeQuotes cs ++ '"' :: d :: rest) = (cs, d :: rest) := by
  induction cs with
  | nil => simp [escapeQuotes, parseQuoted, hd]
  | cons c cs ih =>
    by_cases hc : c = '"'
    · subst hc
      simp [escapeQuotes, parseQuoted, ih]
    · rw [escapeQuotes, if_neg hc, List.cons_append, parseQuoted.eq_def]
      simp [hc, ih]

lemma parseRaw_clean (cs : List Char) (h : ∀ c ∈ cs, isSpecial c = false)
    (d : Char) (hd : d = ',' ∨ d = '\n') (rest : List Char) :
    parseRaw (cs ++ d :: rest) = (cs, d :: rest) := by
  induction cs with
  | nil => rcases hd with hd | hd <;> subst hd <;> simp [parseRaw]
  | cons c cs ih =>
    have hc := h c (List.mem_cons_self c cs)
    have h1 : ¬(c = ',' ∨ c = '\n') := by
      simp [isSpecial] at hc
      tauto
    simp [parseRaw, h1, ih (fun x hx => h x (List.mem_cons_of_mem c hx))]

lemma parseField_encode (cs : List Char) (d : Char) (hd : d = ',' ∨ d = '\n')
    (rest : List Char) :
    parseField (encodeField cs ++ d :: rest) = (cs, d :: rest) := by
  have hd2 : d ≠ '"' := by rcases hd with hd | hd <;> subst hd <;> decide
  by_cases hq : cs.any isSpecial
  · rw [encodeField, if_pos hq]
    have hassoc : ('"' :: (escapeQuotes cs ++ [ '"' ])) ++ d :: rest =
        '"' :: (escapeQuotes cs ++ '"' :: d :: rest) := by simp
    rw [hassoc, parseField]
    simp [parseQuoted_escape cs d hd2 rest]
  · rw [encodeField, if_neg hq]
    have hall : ∀ c ∈ cs, isSpecial c = false := by
      intro c hc
      by_contra hcc
      exact hq (List.any_eq_true.mpr ⟨c, hc, by simpa using hcc⟩)
    cases cs with
    | nil => simpa [parseField, hd2] using parseRaw_clean [] (by simp) d hd rest
    | cons c cs2 =>
      have hc : isSpecial c = false := hall c (List.mem_cons_self c cs2)
      have h1 : c ≠ '"' := by
        simp [isSpecial] at hc
        tauto
      simpa [parseField, h1] using parseRaw_clean (c :: cs2) hall d hd rest

lemma parseRecAux_encode (fs : List (List Char)) (hne : fs ≠ [])
    (rest : List Char) (fuel : ℕ) (hf : fs.length ≤ fuel) :
    parseRecAux fuel (encodeRecord fs ++ rest) = (fs, rest) := by
  induction fs generalizing fuel rest with
  | nil => exact absurd rfl hne
  | cons f fs ih =>
    obtain ⟨fuel, rfl⟩ : ∃ k, fuel = k + 1 :=
      ⟨fuel - 1, by simp at hf; omega⟩
    cases fs with
    | nil =>
      have henc : encodeRecord [f] ++ rest = encodeField f ++ '\n' :: rest := by
        simp [encodeRecord]
      rw [henc, parseRecAux]
      simp [parseField_encode f '\n' (Or.inr rfl) rest]
    | cons f2 fs2 =>
      have henc : encodeRecord (f :: f2 :: fs2) ++ rest =
          encodeField f ++ ',' :: (encodeRecord (f2 :: fs2) ++ rest) := by
        simp [encodeRecord]
      rw [henc, parseRecAux]
      have hih := ih (by simp) rest fuel (by simp at hf ⊢; omega)
      simp [parseField_encode f ',' (Or.inl rfl)
        (encodeRecord (f2 :: fs2) ++ rest), hih]

lemma encodeRecord_length_pos (fs : List (List Char)) :
    0 < (encodeRecord fs).length := by
  cases fs with
  | nil => simp [encodeRecord]
  | cons f fs => cases fs <;> simp [encodeRecord]

lemma length_le_encodeRecord (fs : List (List Char)) :
    fs.length ≤ (encodeRecord fs).length := by
  induction fs with
  | nil => simp [encodeRecord]
  | cons f fs ih =>
    cases fs with
    | nil => simp [encodeRecord]
    | cons f2 fs2 =>
      have h1 : encodeRecord (f :: f2 :: fs2) =
          encodeField f ++ ',' :: encodeRecord (f2 :: fs2) := rfl
      rw [h1]
      simp only [List.length_append, List.length_cons] at ih ⊢
      omega

lemma length_le_encodeCsv (rows : List (List (List Char))) :
    rows.length ≤ (encodeCsv rows).length := by
  induction rows with
  | nil => simp [encodeCsv]
  | cons r rows ih =>
    have h1 := encodeRecord_length_pos r
    have h2 : encodeCsv (r :: rows) = encodeRecord r ++ encodeCsv rows := by
      simp [encodeCsv]
    rw [h2]
    simp only [List.length_append, List.length_cons]
    omega

lemma parseRowsAux_encode (rows : List (List (List Char)))
    (hr : ∀ r ∈ rows, r ≠ []) (fuel : ℕ) (hf : rows.length ≤ fuel) :
    parseRowsAux fuel (encodeCsv rows) = rows := by
  induction rows generalizing fuel with
  | nil => cases fuel <;> simp [encodeCsv, parseRowsAux]
  | cons r rows ih =>
    obtain ⟨fuel, rfl⟩ : ∃ k, fuel = k + 1 :=
      ⟨fuel - 1, by simp at hf; omega⟩
    have hcs : encodeCsv (r :: rows) = encodeRecord r ++ encodeCsv rows := by
      simp [encodeCsv]
    have hne : encodeCsv (r :: rows) ≠ [] := by
      rw [hcs]
      intro hx
      rcases List.append_eq_nil.mp hx with ⟨hx1, -⟩
      have := encodeRecord_length_pos r
      rw [hx1] at this
      simp at this
    have hrec : parseRecord (encodeCsv (r :: rows)) = (r, encodeCsv rows) := by
      rw [hcs, parseRecord]
      apply parseRecAux_encode r (hr r (List.mem_cons_self r rows)) (encodeCsv rows)
      have h1 := length_le_encodeRecord r
      simp only [List.length_append]
      omega
    obtain ⟨c, cs2, hcons⟩ := List.exists_cons_of_ne_nil hne
    rw [hcons, parseRowsAux, ← hcons, hrec]
    · simp only
      rw [ih (fun x hx => hr x (List.mem_cons_of_mem r hx)) fuel
        (by simp at hf ⊢; omega)]
    · simp

/-- Parsing an encoded CSV file recovers exactly its records (every
record has at least one field, as every record written by the exporter
does). -/
lemma parseCsv_encodeCsv (rows : List (List (List Char)))
    (hr : ∀ r ∈ rows, r ≠ []) :
    parseCsv (encodeCsv rows) = rows :=
  parseRowsAux_encode rows hr _ (length_le_encodeCsv rows)

lemma charDigit_digitChar (d : ℕ) (hd : d < 10) :
    charDigit (Nat.digitChar d) = d := by
  interval_cases d <;> decide

lemma foldr_charDigit_ofDigits (L : List ℕ) (h : ∀ d ∈ L, d < 10) :
    L.foldr (fun d a => 10 * a + charDigit (Nat.digitChar d)) 0 =
      Nat.ofDigits 10 L := by
  induction L with
  | nil => simp [Nat.ofDigits_nil]
  | cons d L ih =>
    have hd := h d (List.mem_cons_self d L)
    rw [List.foldr_cons, ih (fun x hx => h x (List.mem_cons_of_mem d hx)),
      Nat.ofDigits_cons, charDigit_digitChar d hd]
    ring

lemma parseNatChars_renderNat (n : ℕ) : parseNatChars (renderNat n) = n := by
  by_cases h0 : n = 0
  · subst h0
    decide
  · rw [renderNat, if_neg h0, parseNatChars, List.foldl_reverse, List.foldr_map]
    rw [foldr_charDigit_ofDigits _ (fun d hd => Nat.digits_lt_base (by norm_num) hd)]
    exact Nat.ofDigits_digits 10 n

lemma renderNat_not_slash_dash (n : ℕ) :
    ∀ c ∈ renderNat n, c ≠ '/' ∧ c ≠ '-' := by
  intro c hc
  rw [renderNat] at hc
  by_cases h0 : n = 0
  · rw [if_pos h0] at hc
    simp at hc
    subst hc
    decide
  · rw [if_neg h0, List.mem_reverse, List.mem_map] at hc
    obtain ⟨d, hd, rfl⟩ := hc
    have hlt : d < 10 := Nat.digits_lt_base (by norm_num) hd
    interval_cases d <;> decide

lemma renderNat_ne_nil (n : ℕ) : renderNat n ≠ [] := by
  rw [renderNat]
  by_cases h0 : n = 0
  · simp [h0]
  · rw [if_neg h0]
    simp only [ne_eq, List.reverse_eq_nil_iff, List.map_eq_nil_iff]
    exact Nat.digits_ne_nil_iff_ne_zero.mpr h0

lemma takeWhile_append_all (p : Char → Bool) (l1 l2 : List Char)
    (h : ∀ c ∈ l1, p c = true) :
    (l1 ++ l2).takeWhile p = l1 ++ l2.takeWhile p := by
  induction l1 with
  | nil => simp
  | cons c l1 ih =>
    have hc := h c (List.mem_cons_self c l1)
    rw [List.cons_append, List.takeWhile_cons, if_pos hc,
      ih (fun x hx => h x (List.mem_cons_of_mem c hx)), List.cons_append]

lemma dropWhile_append_all (p : Char → Bool) (l1 l2 : List Char)
    (h : ∀ c ∈ l1, p c = true) :
    (l1 ++ l2).dropWhile p = l2.dropWhile p := by
  induction l1 with
  | nil => simp
  | cons c l1 ih =>
    have hc := h c (List.mem_cons_self c l1)
    rw [List.cons_append, List.dropWhile_cons, if_pos hc,
      ih (fun x hx => h x (List.mem_cons_of_mem c hx))]

lemma parsePosRat_render (q : ℚ) (hq : 0 ≤ q) :
    parsePosRat (renderNat q.num.natAbs ++
      (if q.den = 1 then [] else '/' :: renderNat q.den)) = q := by
  have hnum : ((q.num.natAbs : ℕ) : ℚ) = ((q.num : ℤ) : ℚ) := by
    have h1 : 0 ≤ q.num := Rat.num_nonneg.mpr hq
    rw [Int.cast_natAbs]
    exact congrArg (fun z : ℤ => (z : ℚ)) (abs_of_nonneg h1)
  have hall : ∀ c ∈ renderNat q.num.natAbs, notSlash c = true := by
    intro c hc
    simpa [notSlash] using (renderNat_not_slash_dash q.num.natAbs c hc).1
  have hslash : notSlash '/' = false := by decide
  by_cases hden : q.den = 1
  · rw [if_pos hden, List.append_nil, parsePosRat]
    rw [List.takeWhile_eq_self_iff.mpr hall,
      List.dropWhile_eq_nil_iff.mpr hall]
    simp only
    rw [parseNatChars_renderNat, hnum]
    have h3 := Rat.num_div_den q
    rw [hden] at h3
    simpa using h3
  · rw [if_neg hden, parsePosRat]
    rw [takeWhile_append_all _ _ _ hall, dropWhile_append_all _ _ _ hall,
      List.takeWhile_cons, List.dropWhile_cons, if_neg (by rw [hslash]; decide),
      if_neg (by rw [hslash]; decide), List.append_nil]
    simp only
    rw [parseNatChars_renderNat, parseNatChars_renderNat, hnum]
    exact Rat.num_div_den q

lemma parseRatChars_renderRat (q : ℚ) : parseRatChars (renderRat q) = q := by
  by_cases hneg : q < 0
  · rw [renderRat, if_pos hneg]
    have h1 : (-q).num.natAbs = q.num.natAbs := by
      rw [Rat.num_neg_eq_neg_num, Int.natAbs_neg]
    have h2 : (-q).den = q.den := Rat.den_neg_eq_den q
    have h3 := parsePosRat_render (-q) (by linarith)
    rw [h1, h2] at h3
    rw [List.singleton_append, parseRatChars.eq_def]
    simp [h3]
  · rw [renderRat, if_neg hneg, List.nil_append]
    obtain ⟨c, cs, hcons⟩ :=
      List.exists_cons_of_ne_nil (renderNat_ne_nil q.num.natAbs)
    have hcdash : ¬c = '-' :=
      (renderNat_not_slash_dash q.num.natAbs c
        (hcons ▸ List.mem_cons_self c cs)).2
    rw [hcons, List.cons_append, parseRatChars.eq_def]
    simp only [if_neg hcdash]
    rw [← List.cons_append, ← hcons]
    exact parsePosRat_render q (le_of_not_lt hneg)

/-- Claim C5: `convert_df_to_csv` produces a CSV whose first record is the
header `x,y,label,timestamp`, followed by one record per stored annotation
in insertion order with the fields in the column order
`[x, y, label, timestamp]` (the `.encode('utf-8')` step is the injective
byte encoding of exactly this character content); and parsing the
exported CSV back reproduces the same `(x, y, label)` triples in the same
order as the annotation list. -/
theorem export_csv_roundtrip (anns : List Ann) :
    parseCsv (convert_df_to_csv anns) = headerRow :: anns.map annRow ∧
    (parseCsv (convert_df_to_csv anns)).tail.map rowTriple =
      anns.map (fun a => some (a.x, a.y, a.label)) := by
  have h1 : parseCsv (convert_df_to_csv anns) = headerRow :: anns.map annRow := by
    rw [convert_df_to_csv]
    apply parseCsv_encodeCsv
    intro r hr
    rcases List.mem_cons.mp hr with hr | hr
    · subst hr
      simp [headerRow]
    · obtain ⟨a, -, rfl⟩ := List.mem_map.mp hr
      simp [annRow]
  refine ⟨h1, ?_⟩
  rw [h1]
  simp only [List.tail_cons, List.map_map]
  apply List.map_congr_left
  intro a ha
  simp only [Function.comp_apply, annRow, rowTriple,
    parseRatChars_renderRat]

lemma mul_scale_bounds (n : ℕ) (d c : ℚ) (h0 : 0 ≤ c) (h1 : c ≤ d) :
    0 ≤ c * ((n : ℚ) / d) ∧ c * ((n : ℚ) / d) ≤ (n : ℚ) := by
  have hd : 0 ≤ d := le_trans h0 h1
  rcases eq_or_lt_of_le hd with hd0 | hd0
  · have hc : c = 0 := le_antisymm (hd0 ▸ h1) h0
    subst hc
    simp
  · have hq : 0 ≤ (n : ℚ) / d := by positivity
    refine ⟨mul_nonneg h0 hq, ?_⟩
    have h2 : c * ((n : ℚ) / d) ≤ d * ((n : ℚ) / d) :=
      mul_le_mul_of_nonneg_right h1 hq
    have h3 : d * ((n : ℚ) / d) = (n : ℚ) := by
      field_simp
    rw [h3] at h2
    exact h2

lemma dropLast_addAnn (anns : List Ann) (a : Ann) :
    (addAnn anns a).dropLast = anns := by
  unfold addAnn
  by_cases hl : anns.length = 0
  · simp [hl, List.length_eq_zero.mp hl]
  · rw [if_neg hl, List.dropLast_concat]

lemma addAnn_length (anns : List Ann) (a : Ann) :
    (addAnn anns a).length = anns.length + 1 := by
  unfold addAnn
  by_cases hl : anns.length = 0 <;> simp [hl]

lemma mem_addAnn {anns : List Ann} {a b : Ann} (hb : b ∈ addAnn anns a) :
    b ∈ anns ∨ b = a := by
  unfold addAnn at hb
  by_cases hl : anns.length = 0
  · rw [if_pos hl] at hb
    right
    simpa using hb
  · rw [if_neg hl, List.mem_append] at hb
    rcases hb with hb | hb
    · exact Or.inl hb
    · right
      simpa using hb

lemma step_preserves_inv (w h : ℕ) (s : AppState) (e : Event)
    (hs : stateInv w h s) (he : validEvent w h e) :
    stateInv w h (step w h s e) := by
  obtain ⟨hanns, hpt⟩ := hs
  cases e with
  | click dw cx cy =>
    obtain ⟨h1, h2, h3, h4⟩ := he
    by_cases hA : s.awaiting_label
    · simpa [step, hA] using ⟨hanns, hpt⟩
    · refine ⟨by simpa [step, hA] using hanns, ?_⟩
      intro p hp
      simp [step, hA, clickToOriginal] at hp
      have hx := mul_scale_bounds w (dw : ℚ) cx h1 h2
      have hdh : (0 : ℚ) ≤ ((display_height w h dw : ℤ) : ℚ) := by
        have : (0 : ℤ) ≤ display_height w h dw := by
          unfold display_height
          rw [Int.le_floor]
          positivity
        exact_mod_cast this
      have hy := mul_scale_bounds h ((display_height w h dw : ℤ) : ℚ) cy h3 h4
      rw [← hp]
      exact ⟨by simpa [scale_x] using hx.1, by simpa [scale_x] using hx.2,
        by simpa [scale_y] using hy.1, by simpa [scale_y] using hy.2⟩
  | setPoint x y =>
    obtain ⟨h1, h2⟩ := he
    refine ⟨by simpa [step] using hanns, ?_⟩
    intro p hp
    simp [step] at hp
    rw [← hp]
    refine ⟨?_, ?_, ?_, ?_⟩ <;> simp [Nat.cast_le, h1, h2]
  | submit label ts =>
    cases hc : s.current_point with
    | none => simpa [step, hc] using ⟨hanns, hpt⟩
    | some p =>
      cases hA : s.awaiting_label with
      | false => simpa [step, hc, hA] using ⟨hanns, hpt⟩
      | true =>
        by_cases hl : label = ""
        · simpa [step, hc, hA, hl] using ⟨hanns, hpt⟩
        · refine ⟨?_, by simp [step, hc, hA, hl]⟩
          intro a ha
          simp only [step, hc, hA, if_neg hl] at ha
          rcases mem_addAnn ha with ha | ha
          · exact hanns a ha
          · rw [ha]
            exact hpt p hc
  | cancel =>
    cases hc : s.current_point with
    | none => simpa [step, hc] using ⟨hanns, hpt⟩
    | some p =>
      cases hA : s.awaiting_label with
      | false => simpa [step, hc, hA] using ⟨hanns, hpt⟩
      | true =>
        exact ⟨by simpa [step, hc, hA] using hanns, by simp [step, hc, hA]⟩
  | undo =>
    by_cases hl : s.anns.length > 0
    · refine ⟨?_, by simpa [step, hl] using hpt⟩
      intro a ha
      simp only [step, if_pos hl] at ha
      exact hanns a ((List.dropLast_sublist _).subset ha)
    · simpa [step, hl] using ⟨hanns, hpt⟩
  | clear =>
    by_cases hl : s.anns.length > 0
    · simp [step, hl, stateInv]
    · simpa [step, hl] using ⟨hanns, hpt⟩

lemma run_preserves_inv (w h : ℕ) (es : List Event) (s : AppState)
    (hs : stateInv w h s) (hv : ∀ e ∈ es, validEvent w h e) :
    stateInv w h (run w h s es) := by
  induction es generalizing s with
  | nil => simpa [run] using hs
  | cons e es ih =>
    have h1 : validEvent w h e := hv e (List.mem_cons_self e es)
    have h2 : ∀ x ∈ es, validEvent w h x := fun x hx => hv x (List.mem_cons_of_mem e hx)
    simpa [run] using ih (step w h s e) (step_preserves_inv w h s e hs h1) h2

/-- Claim C4: starting from the empty session, after any sequence of user
actions in which every click lies inside the displayed image (and every
manual entry respects the widget clamp to `[0, width]` x `[0, height]`),
every stored annotation satisfies `0 ≤ x ≤ image_width` and
`0 ≤ y ≤ image_height` in original-image coordinates. -/
theorem annotations_in_bounds (w h : ℕ) (es : List Event)
    (hv : ∀ e ∈ es, validEvent w h e) :
    ∀ a ∈ (run w h initState es).anns,
      0 ≤ a.x ∧ a.x ≤ (w : ℚ) ∧ 0 ≤ a.y ∧ a.y ≤ (h : ℚ) := by
  have hinit : stateInv w h initState := by
    constructor
    · intro a ha
      simp [initState] at ha
    · intro p hp
      simp [initState] at hp
  exact (run_preserves_inv w h es initState hinit hv).1

/-- Witness for C4: a manual point entry at (10, 20) followed by a
confirmed submission, on an 800 x 600 image. -/
theorem annotations_in_bounds_witness :
    0 ≤ (Ann.mk 10 20 "cat" "t").x ∧
    (Ann.mk 10 20 "cat" "t").x ≤ ((800 : ℕ) : ℚ) ∧
    0 ≤ (Ann.mk 10 20 "cat" "t").y ∧
    (Ann.mk 10 20 "cat" "t").y ≤ ((600 : ℕ) : ℚ) := by
  refine annotations_in_bounds 800 600
    [Event.setPoint 10 20, Event.submit "cat" "t"] ?_ (Ann.mk 10 20 "cat" "t") ?_
  · intro e he
    fin_cases he <;> simp [validEvent]
  · simp [run, step, initState, addAnn]

/-- Claim C3: a confirmed submission with a non-empty label (appending an
annotation for the pending point) followed by undo restores the prior
annotation list exactly. -/
theorem add_then_undo (w h : ℕ) (s : AppState) (p : ℚ × ℚ) (label ts : String)
    (hA : s.awaiting_label = true) (hp : s.current_point = some p)
    (hl : label ≠ "") :
    (step w h (step w h s (Event.submit label ts)) Event.undo).anns = s.anns := by
  have hstep : step w h s (Event.submit label ts) =
      { s with anns := addAnn s.anns ⟨p.1, p.2, label, ts⟩,
               current_point := none, awaiting_label := false } := by
    simp [step, hp, hA, hl]
  rw [hstep]
  have hlen : (addAnn s.anns ⟨p.1, p.2, label, ts⟩).length > 0 := by
    rw [addAnn_length]
    omega
  simp [step, hlen, dropLast_addAnn]

/-- Witness for C3, reflecting the spec example: with annotations
`[a1, a2]` stored and a third point pending, submitting a third label and
undoing once leaves exactly the first two annotations. -/
theorem add_then_undo_witness :
    (step 800 600 (step 800 600 (AppState.mk [a1, a2] (some (5, 6)) true)
      (Event.submit "p3" "t3")) Event.undo).anns = [a1, a2] :=
  add_then_undo 800 600 (AppState.mk [a1, a2] (some (5, 6)) true) (5, 6)
    "p3" "t3" rfl rfl (by decide)

/-- Claim C6: submitting the annotation form with an empty label is
silently ignored: whatever the pending point and annotation list, no
annotation is added (the handler is a total function, so no error is
raised either). -/
theorem empty_label_submit_ignored (w h : ℕ) (s : AppState) (ts : String) :
    (step w h s (Event.submit "" ts)).anns = s.anns := by
  cases hc : s.current_point <;> cases hA : s.awaiting_label <;>
    simp [step, hc, hA]

/-- Claim C7: the Clear All handler always yields an empty annotation
list, regardless of how many annotations were stored before. -/
theorem clear_empties (w h : ℕ) (s : AppState) :
    (step w h s Event.clear).anns = [] := by
  by_cases hl : s.anns.length > 0
  · simp [step, hl]
  · have : s.anns = [] := by
      rw [← List.length_eq_zero]
      omega
    simp [step, hl, this]

/-- Claim C8: invoking undo or clear when the annotation list is empty is
a no-op: the whole state is unchanged (in particular the list stays
empty), and the handlers are total, so no error is surfaced. -/
theorem undo_clear_on_empty_noop (w h : ℕ) (s : AppState)
    (he : s.anns = []) :
    step w h s Event.undo = s ∧ step w h s Event.clear = s := by
  constructor <;> simp [step, he]

/-- Witness for C8 at the initial (empty) session state. -/
theorem undo_clear_on_empty_noop_witness :
    step 800 600 initState Event.undo = initState ∧
    step 800 600 initState Event.clear = initState :=
  undo_clear_on_empty_noop 800 600 initState rfl

/-- Claim C9: Clear All (available whenever the annotation list is
non-empty) resets more than the list: the pending point is discarded
(`current_point` becomes `None`) and the awaiting-label flag is cleared
(`awaiting_label` becomes `False`), so no label form is shown for a point
selected before the clear. -/
theorem clear_resets_pending (w h : ℕ) (s : AppState)
    (hne : s.anns ≠ []) :
    (step w h s Event.clear).anns = [] ∧
    (step w h s Event.clear).current_point = none ∧
    (step w h s Event.clear).awaiting_label = false := by
  have hl : s.anns.length > 0 := List.length_pos.mpr hne
  simp [step, hl]

/-- Witness for C9 with one stored annotation and a pending point. -/
theorem clear_resets_pending_witness :
    (step 800 600 (AppState.mk [a1] (some (1, 1)) true) Event.clear).anns = [] ∧
    (step 800 600 (AppState.mk [a1] (some (1, 1)) true)
        Event.clear).current_point = none ∧
    (step 800 600 (AppState.mk [a1] (some (1, 1)) true)
        Event.clear).awaiting_label = false :=
  clear_resets_pending 800 600 (AppState.mk [a1] (some (1, 1)) true) (by simp)

/-- Claim C10: an ignored empty-label submission leaves the pending-point
state unchanged (`current_point` and `awaiting_label` keep their values),
while a submission with a non-empty label, or a cancel, resets
`current_point` to `None` and `awaiting_label` to `False`. -/
theorem pending_point_frame (w h : ℕ) (s : AppState) (ts : String) :
    ((step w h s (Event.submit "" ts)).current_point = s.current_point ∧
     (step w h s (Event.submit "" ts)).awaiting_label = s.awaiting_label) ∧
    (∀ label : String, label ≠ "" → s.awaiting_label = true →
      ∀ p : ℚ × ℚ, s.current_point = some p →
        (step w h s (Event.submit label ts)).current_point = none ∧
        (step w h s (Event.submit label ts)).awaiting_label = false) ∧
    (s.awaiting_label = true → ∀ p : ℚ × ℚ, s.current_point = some p →
      (step w h s Event.cancel).current_point = none ∧
      (step w h s Event.cancel).awaiting_label = false) := by
  refine ⟨?_, ?_, ?_⟩
  · cases hc : s.current_point <;> cases hA : s.awaiting_label <;>
      simp [step, hc, hA]
  · intro label hl hA p hp
    simp [step, hp, hA, hl]
  · intro hA p hp
    simp [step, hp, hA]

/-- Witness for C10: a non-empty-label submission on a state with a
pending point resets the pending-point state. -/
theorem pending_point_frame_witness :
    (step 800 600 (AppState.mk [] (some (1, 2)) true)
        (Event.submit "door" "t")).current_point = none ∧
    (step 800 600 (AppState.mk [] (some (1, 2)) true)
        (Event.submit "door" "t")).awaiting_label = false :=
  (pending_point_frame 800 600 (AppState.mk [] (some (1, 2)) true) "t").2.1
    "door" (by decide) rfl (1, 2) rfl

end ImageAnnotator
